import Mathlib

/-!
Verification of the budget-tracker core: the `Category`/`Budget` data model and
its derived lookup indexes (src/app/parser/budget_loader.py), and the
budget-vs-actual analyzer (src/app/analysis/budget_analyzer.py).

Modelling conventions:
* Monetary amounts (Python floats) are modelled as rationals; every amount the
  development evaluates is an exact decimal, so the arithmetic is exact.
* Python `Optional[List[Category]]` subcategories are modelled as a plain list:
  every consumer in the source guards with `if cat.subcategories:`, under which
  `None` and the empty list are indistinguishable.
* Python dicts built by repeated assignment are modelled as association lists
  where lookup returns the LAST binding, mirroring dict overwrite semantics.
* Python exceptions are modelled with `Except` / explicit error sums.
-/

namespace BudgetTracker

/-- A budget category tree node (class `Category` in budget_loader.py):
a name, an optional amount (`None` encodes INHERITED), and subcategories. -/
inductive Category where
  | mk : String → Option ℚ → List Category → Category

/-- Field `category` of `Category`. -/
def Category.category : Category → String
  | .mk n _ _ => n

/-- Field `amount` of `Category` (`none` for INHERITED). -/
def Category.amount : Category → Option ℚ
  | .mk _ a _ => a

/-- Field `subcategories` of `Category` (`[]` for absent). -/
def Category.subcategories : Category → List Category
  | .mk _ _ s => s

/-- A budget (class `Budget` in budget_loader.py): income and expense forests.
The derived private maps are recomputed from the forests below, exactly as
`model_post_init` rebuilds them from scratch on every (re)construction. -/
structure Budget where
  income : List Category
  expenses : List Category

mutual

/-- All category names of a forest, in depth-first visit order. -/
def namesList : List Category → List String
  | [] => []
  | c :: cs => namesOne c ++ namesList cs

/-- All category names of a tree, root first. -/
def namesOne : Category → List String
  | .mk n _ subs => n :: namesList subs

end

mutual

/-- The bindings `populate_map` adds for a forest, given the current
amount-bearing ancestor (`current_budget_cat`), in insertion order. -/
def populateMap : List Category → Option Category → List (String × Category)
  | [], _ => []
  | c :: cs, cur => populateOne c cur ++ populateMap cs cur

/-- The bindings `populate_map` adds for one tree: the node itself binds its
name to the nearest amount-bearing ancestor-or-self (when one exists), then the
subtree is processed carrying that ancestor. -/
def populateOne : Category → Option Category → List (String × Category)
  | .mk n a subs, cur =>
    let next : Option Category := match a with
      | some _ => some (.mk n a subs)
      | none => cur
    (match next with
      | some bc => [(n, bc)]
      | none => []) ++ populateMap subs next

end

/-- Lookup in an insertion-ordered association list returning the LAST binding,
i.e. Python dict semantics under repeated key assignment. -/
def dictLookup : List (String × Category) → String → Option Category
  | [], _ => none
  | (k, v) :: rest, x =>
    match dictLookup rest x with
    | some r => some r
    | none => if k = x then some v else none

/-- The `_budget_category_map` built by `model_post_init`: income forest first,
then expenses, both starting with no current budget category. -/
def Budget.budget_category_map (b : Budget) : List (String × Category) :=
  populateMap b.income none ++ populateMap b.expenses none

/-- `Budget.get_budget_category`: map lookup, `None` when the key is absent. -/
def Budget.get_budget_category (b : Budget) (cat : String) : Option Category :=
  dictLookup b.budget_category_map cat

mutual

/-- `_iter_categories_with_amount` over a forest: every node (at any depth)
carrying a defined amount, in depth-first visit order. -/
def catsWithAmountList : List Category → List Category
  | [] => []
  | c :: cs => catsWithAmountOne c ++ catsWithAmountList cs

/-- `_iter_categories_with_amount` over one tree: the node first (when it has
an amount), then its subtree. -/
def catsWithAmountOne : Category → List Category
  | .mk n (some a) subs => .mk n (some a) subs :: catsWithAmountList subs
  | .mk _ none subs => catsWithAmountList subs

end

/-- `Budget.get_expense_categories`. -/
def Budget.get_expense_categories (b : Budget) : List Category :=
  catsWithAmountList b.expenses

/-- `Budget.get_income_categories`. -/
def Budget.get_income_categories (b : Budget) : List Category :=
  catsWithAmountList b.income

/-- `Budget.get_expense_category`: first amount-bearing expense node with the
given name, in iteration order. -/
def Budget.get_expense_category (b : Budget) (catName : String) : Option Category :=
  (catsWithAmountList b.expenses).find? (fun c => c.category == catName)

/-! ## Loader: raw documents, INHERITED preprocessing, schema, load pipeline -/

/-- A raw `amount` value as it appears in a parsed YAML document: a number, a
string, or null/absent (pydantic treats a missing optional field as `None`). -/
inductive RawAmount where
  | num : ℚ → RawAmount
  | str : String → RawAmount
  | null : RawAmount
deriving DecidableEq, Repr

/-- A raw category node of a parsed YAML document; `subcategories` is `none`
when the key is absent. -/
inductive RawCat where
  | mk : String → RawAmount → Option (List RawCat) → RawCat

/-- Name of a raw category node. -/
def RawCat.category : RawCat → String
  | .mk n _ _ => n

/-- Amount of a raw category node. -/
def RawCat.amount : RawCat → RawAmount
  | .mk _ a _ => a

/-- A raw budget document: the `income` and `expenses` lists (both present,
as the schema requires). -/
structure RawDoc where
  income : List RawCat
  expenses : List RawCat

/-- Python's `str.upper()` on the category data (ASCII-faithful character
uppercasing; `String.toUpper` itself, being tail-recursive, does not reduce in
the kernel). -/
def upperString (s : String) : String := ⟨s.data.map Char.toUpper⟩

/-- The amount rewrite of `Budget.preprocess_inherited`: a string equal to
INHERITED case-insensitively becomes null; everything else is untouched. -/
def processAmount : RawAmount → RawAmount
  | .str s => if upperString s = "INHERITED" then .null else .str s
  | a => a

mutual

/-- `process_category` in `Budget.preprocess_inherited`: rewrite this node's
amount and recurse into `subcategories` when the key holds a list. -/
def processCategory : RawCat → RawCat
  | .mk n a subs => .mk n (processAmount a) (processSubs subs)

/-- Recursion of `process_category` into an optional subcategory list. -/
def processSubs : Option (List RawCat) → Option (List RawCat)
  | none => none
  | some l => some (processCategoryList l)

/-- `process_category` mapped over a list. -/
def processCategoryList : List RawCat → List RawCat
  | [] => []
  | c :: cs => processCategory c :: processCategoryList cs

end

/-- `Budget.preprocess_inherited` on a whole document (a pydantic
before-validator: it runs before any field type validation). -/
def preprocessInherited (d : RawDoc) : RawDoc :=
  ⟨processCategoryList d.income, processCategoryList d.expenses⟩

/-- Pydantic field validation of `amount : Optional[float]`: numbers pass
through, null/absent becomes `none`, a string is rejected. -/
def parseAmount : RawAmount → Option (Option ℚ)
  | .num q => some (some q)
  | .null => some none
  | .str _ => none

mutual

/-- Pydantic construction of a `Category` from raw data (after the
before-validator has run); fails if any amount in the tree is non-numeric. -/
def parseCat : RawCat → Option Category
  | .mk n a subs =>
    match parseAmount a, parseSubs subs with
    | some oa, some cs => some (.mk n oa cs)
    | _, _ => none

/-- Construction of the optional subcategory list (absent becomes `[]`,
observationally identical to `None` throughout the source). -/
def parseSubs : Option (List RawCat) → Option (List Category)
  | none => some []
  | some l => parseCatList l

/-- Pydantic construction mapped over a list of raw categories. -/
def parseCatList : List RawCat → Option (List Category)
  | [] => some []
  | c :: cs =>
    match parseCat c, parseCatList cs with
    | some c2, some cs2 => some (c2 :: cs2)
    | _, _ => none

end

/-- Modelled from the spec: the published JSON schema `data/budget_schema.json`
is not under src/. Per spec section 6 an `amount` must be a number or the
case-insensitive literal INHERITED; no other value is accepted. -/
def schemaAmountOK : RawAmount → Bool
  | .num _ => true
  | .str s => upperString s == "INHERITED"
  | .null => false

mutual

/-- Modelled from the spec: schema conformance of one raw category
(`category: string` is implicit in the typed model; `subcategories` optional,
checked recursively). -/
def schemaCatOK : RawCat → Bool
  | .mk _ a subs => schemaAmountOK a && schemaSubsOK subs

/-- Modelled from the spec: schema conformance of an optional subcategory
list. -/
def schemaSubsOK : Option (List RawCat) → Bool
  | none => true
  | some l => schemaCatListOK l

/-- Modelled from the spec: schema conformance of a raw category list. -/
def schemaCatListOK : List RawCat → Bool
  | [] => true
  | c :: cs => schemaCatOK c && schemaCatListOK cs

end

/-- Modelled from the spec: schema conformance of a whole raw document. -/
def schemaValid (d : RawDoc) : Bool :=
  schemaCatListOK d.income && schemaCatListOK d.expenses

/-- Failures of `BudgetLoader.load_budget`, each modelling one exception
source: unreadable file, YAML parse error, `jsonschema.ValidationError`,
pydantic validation error. -/
inductive LoadError where
  | ioError | yamlError | schemaError | typeError
deriving DecidableEq, Repr

/-- Input to `BudgetLoader.load_budget`, abstracting the file system: the file
is unreadable, fails YAML parsing, or parses to a raw document. -/
inductive BudgetFile where
  | unreadable
  | unparseable
  | parsed : RawDoc → BudgetFile

/-- Pydantic construction `Budget(**data)`: the before-validator
`preprocess_inherited` rewrites the raw data, then fields are validated. -/
def budgetOfDoc (d : RawDoc) : Option Budget :=
  let d2 := preprocessInherited d
  match parseCatList d2.income, parseCatList d2.expenses with
  | some inc, some exp => some ⟨inc, exp⟩
  | _, _ => none

/-- `BudgetLoader.load_budget`: read, YAML-parse, validate against the JSON
schema, then construct the pydantic `Budget`. -/
def loadBudget : BudgetFile → Except LoadError Budget
  | .unreadable => .error .ioError
  | .unparseable => .error .yamlError
  | .parsed d =>
    if schemaValid d then
      match budgetOfDoc d with
      | some b => .ok b
      | none => .error .typeError
    else .error .schemaError

/-- `BudgetLoader.validate_budget_file`: `load_budget` under a
catch-all `except Exception: return False`. -/
def validate_budget_file (f : BudgetFile) : Bool :=
  match loadBudget f with
  | .ok _ => true
  | .error _ => false

/-! ## Analyzer: actual-spending table, variances -/

/-- The actual-spending table (a pandas DataFrame): ordered column names and
rows of (index name, values aligned with the columns). -/
structure DataFrame where
  colNames : List String
  rows : List (String × List ℚ)

/-- One row of the `calculate_variances` result. -/
structure VarianceRecord where
  category : String
  budgeted : ℚ
  actual : ℚ
  variance : ℚ
  variance_percent : ℚ
deriving DecidableEq, Repr

/-- Errors raised by analyzer methods: the "No actual data set" `ValueError`
(the spec's UnsetDataError) and the `TypeError` from subscripting an unset
month tuple. -/
inductive AnalyzerError where
  | unsetData | rangeNotSet
deriving DecidableEq, Repr

/-- `BudgetAnalyzer` state: budget, optional actual data, optional month range
(column name, column index), threshold and overspend-only flag. -/
structure AnalyzerState where
  budget : Budget
  actualData : Option DataFrame
  startMonth : Option (String × Nat) := none
  endMonth : Option (String × Nat) := none
  overspendThreshold : ℚ := 10
  onlyOverspend : Bool := false

/-- `BudgetAnalyzer.set_analysis_date_range`: raises when no actual data is
set (state untouched), otherwise stores the two month tuples. -/
def set_analysis_date_range (st : AnalyzerState) (s e : String × Nat) :
    Option AnalyzerError × AnalyzerState :=
  match st.actualData with
  | none => (some .unsetData, st)
  | some _ => (none, { st with startMonth := some s, endMonth := some e })

/-- The per-row total of `summarize_totals_by_budget_category`: the subset
holds columns `s` to `e` inclusive, and `iloc[:, 1:].sum(axis=1)` sums the
subset MINUS ITS FIRST COLUMN. -/
def rowTotal (vals : List ℚ) (s e : Nat) : ℚ :=
  (((vals.drop s).take (e + 1 - s)).drop 1).sum

/-- Rows of the intermediate `actual_spending` frame after the
`Budget_Category` mapping and the not-na filter: rows whose index has no
budget-category match are dropped. -/
def mappedTotals (b : Budget) (df : DataFrame) (s e : Nat) : List (String × ℚ) :=
  df.rows.filterMap (fun r =>
    (b.get_budget_category r.1).map (fun c => (c.category, rowTotal r.2 s e)))

/-- `summarize_totals_by_budget_category` as the resulting series: a key is
present iff some row maps to it, and its value is the group sum. -/
def summarize_totals_by_budget_category (b : Budget) (df : DataFrame)
    (s e : Nat) (g : String) : Option ℚ :=
  let xs := (mappedTotals b df s e).filter (fun p => p.1 == g)
  if xs.isEmpty then none else some (xs.map Prod.snd).sum

/-- Number of months of the selected range: `end_month[1] - start_month[1] + 1`
on Python integers. -/
def numMonths (s e : Nat) : ℤ := (e : ℤ) - (s : ℤ) + 1

/-- The variance record built for one expense budget category (the body of the
`calculate_variances` loop). Members of `get_expense_categories` always carry
an amount, so the `getD 0` default is never taken. -/
def mkVarianceRecord (exp : Category) (n : ℤ) (actual : ℚ) : VarianceRecord :=
  let budgetAmount := (exp.amount.getD 0) * (n : ℚ)
  let variance := budgetAmount + actual
  let variancePct := if budgetAmount = 0 then 0 else (variance / budgetAmount) * (-100)
  ⟨exp.category, budgetAmount, -actual, -variance, variancePct⟩

/-- `BudgetAnalyzer.calculate_variances`: fails when actual data is unset;
then fails when the month range was never set; otherwise builds one record per
expense budget category (reindexing absent actuals to 0), skipping records at
or under the threshold when `only_overspend` is on. -/
def calculate_variances (st : AnalyzerState) :
    Except AnalyzerError (List VarianceRecord) :=
  match st.actualData with
  | none => .error .unsetData
  | some df =>
    match st.startMonth, st.endMonth with
    | some sm, some em =>
      let n := numMonths sm.2 em.2
      .ok ((st.budget.get_expense_categories).filterMap (fun exp =>
        let actual := (summarize_totals_by_budget_category st.budget df
          sm.2 em.2 exp.category).getD 0
        let r := mkVarianceRecord exp n actual
        if st.onlyOverspend && decide (r.variance_percent ≤ st.overspendThreshold)
        then none else some r))
    | _, _ => .error .rangeNotSet

/-- Modelled from the spec (for contrast with the source): the spec's row
total sums EVERY column of the selected inclusive range, including the first
column of the range. -/
def rowTotalSpec (vals : List ℚ) (s e : Nat) : ℚ :=
  ((vals.drop s).take (e + 1 - s)).sum

/-- Modelled from the spec (for contrast with the source): the reconciliation
step with full-range row totals. -/
def summarizeTotalsSpec (b : Budget) (df : DataFrame) (s e : Nat)
    (g : String) : Option ℚ :=
  let xs := (df.rows.filterMap (fun r =>
    (b.get_budget_category r.1).map (fun c => (c.category, rowTotalSpec r.2 s e)))).filter
    (fun p => p.1 == g)
  if xs.isEmpty then none else some (xs.map Prod.snd).sum

/-! ## Concrete fixtures (the spec's sample scenario) -/

/-- The sample budget of the spec: income Salary=6000; expenses Housing=1500
with inherited subcategory, Groceries=400. -/
def sampleBudget : Budget :=
  { income := [.mk "Salary" (some 6000) []],
    expenses := [.mk "Housing" (some 1500) [.mk "Renter's Insurance" none []],
                 .mk "Groceries" (some 400) []] }

/-- One-month actual table: Housing spent 1600, Groceries spent 549.73. -/
def df1 : DataFrame :=
  { colNames := ["Jul"],
    rows := [("Housing", [-1600]), ("Groceries", [-54973/100])] }

/-- Analyzer over `df1` with the 1-period range [0, 0]. -/
def st1 : AnalyzerState :=
  { budget := sampleBudget, actualData := some df1,
    startMonth := some ("Jul", 0), endMonth := some ("Jul", 0) }

/-- Two-month actual table: Housing spent 0 then 3200. -/
def df2 : DataFrame :=
  { colNames := ["Jul", "Aug"], rows := [("Housing", [0, -3200])] }

/-- Analyzer over `df2` with the 2-period range [0, 1]. -/
def st2 : AnalyzerState :=
  { budget := sampleBudget, actualData := some df2,
    startMonth := some ("Jul", 0), endMonth := some ("Aug", 1) }

/-! ## C1 -/

/-- C1: `summarize_totals_by_budget_category` does NOT include the first
column of the selected range. Failing input: one month column, range
[0, 0], row "Housing" = −1600. The source totals `iloc[:, 1:]` of the
selected subset, so the group total for "Housing" is 0; the claimed
full-range total (also computed by the repository's own test
`_compute_expected_variances`) is −1600. -/
theorem c1_first_column_excluded :
    summarize_totals_by_budget_category sampleBudget df1 0 0 "Housing" = some 0 ∧
    summarizeTotalsSpec sampleBudget df1 0 0 "Housing" = some (-1600) ∧
    (some (0 : ℚ) ≠ some (-1600 : ℚ)) := by
  refine ⟨?_, ?_, by norm_num⟩ <;>
  · simp only [summarize_totals_by_budget_category, summarizeTotalsSpec, mappedTotals,
      rowTotal, rowTotalSpec, sampleBudget, df1, Budget.get_budget_category,
      Budget.budget_category_map, populateMap, populateOne, dictLookup, Category.category,
      List.filterMap, List.filter, String.reduceBEq, String.reduceEq]
    norm_num

/-! ## C2 -/

/-- C2 counterexample: at the claim's exact scenario (Housing=1500,
Groceries=400, one selected period, actual rows Housing=−1600 and
Groceries=−549.73), `calculate_variances` returns Housing record
(budgeted 1500, actual 0, variance −1500, variance_percent −100) and
Groceries record (400, 0, −400, −100) — not the claimed
(1500, 1600, −100, ≈−6.667) and (400, 549.73, −149.73, ≈−37.43). -/
theorem c2_counterexample :
    calculate_variances st1 =
      .ok [⟨"Housing", 1500, 0, -1500, -100⟩, ⟨"Groceries", 400, 0, -400, -100⟩] ∧
    ((0 : ℚ) ≠ 1600 ∧ (-1500 : ℚ) ≠ -100 ∧ (-100 : ℚ) ≠ -20/3) ∧
    ((0 : ℚ) ≠ 54973/100 ∧ (-400 : ℚ) ≠ -14973/100) := by
  refine ⟨?_, by norm_num, by norm_num⟩
  simp only [calculate_variances, st1, df1, sampleBudget, summarize_totals_by_budget_category,
    mappedTotals, rowTotal, mkVarianceRecord, numMonths, Budget.get_expense_categories,
    catsWithAmountList, catsWithAmountOne, Budget.get_budget_category, Budget.budget_category_map,
    populateMap, populateOne, dictLookup, Category.category, Category.amount,
    List.filterMap, List.filter, String.reduceBEq, String.reduceEq]
  norm_num

/-- C2 amended: over the 1-period range the row totals exclude the only
selected column, so both records carry actual 0, variance −budgeted and
variance_percent −100; and when rows mapping to Housing do total −3200
against a 2-period budget of 3000, the record is (3000, 3200, +200, +20/3):
overspend yields POSITIVE variance and variance_percent. -/
theorem c2_amended :
    calculate_variances st1 =
      .ok [⟨"Housing", 1500, 0, -1500, -100⟩, ⟨"Groceries", 400, 0, -400, -100⟩] ∧
    calculate_variances st2 =
      .ok [⟨"Housing", 3000, 3200, 200, 20/3⟩, ⟨"Groceries", 800, 0, -800, -100⟩] := by
  constructor <;>
  · simp only [calculate_variances, st1, df1, st2, df2, sampleBudget,
      summarize_totals_by_budget_category, mappedTotals, rowTotal, mkVarianceRecord, numMonths,
      Budget.get_expense_categories, catsWithAmountList, catsWithAmountOne,
      Budget.get_budget_category, Budget.budget_category_map, populateMap, populateOne,
      dictLookup, Category.category, Category.amount,
      List.filterMap, List.filter, String.reduceBEq, String.reduceEq]
    norm_num

/-! ## C5 -/

/-- C5: `calculate_variances` fails with the unset-data error exactly when the
actual-spending table has not been set; whenever the table is set, that error
is never raised (any failure is the distinct unset-range error). -/
theorem c5_unset_data_error (st : AnalyzerState) :
    calculate_variances st = .error .unsetData ↔ st.actualData = none := by
  rcases st with ⟨b, ad, sm, em, th, oo⟩
  cases ad with
  | none => simp [calculate_variances]
  | some df => cases sm <;> cases em <;> simp [calculate_variances]

/-! ## C9 -/

/-- C9: when no actual data is set, `set_analysis_date_range` raises the
unset-data error for every pair of month arguments and leaves the stored
start and end months (indeed the whole state) unchanged. -/
theorem c9_set_range_atomic (st : AnalyzerState) (s e : String × Nat)
    (h : st.actualData = none) :
    (set_analysis_date_range st s e).1 = some AnalyzerError.unsetData ∧
    (set_analysis_date_range st s e).2.startMonth = st.startMonth ∧
    (set_analysis_date_range st s e).2.endMonth = st.endMonth := by
  simp [set_analysis_date_range, h]

/-- C9 witness: a concrete analyzer with no actual data and a stored range. -/
theorem c9_witness :
    (set_analysis_date_range
        ⟨sampleBudget, none, some ("May", 3), some ("Jun", 4), 10, false⟩
        ("Jul", 0) ("Aug", 1)).1 = some AnalyzerError.unsetData ∧
    (set_analysis_date_range
        ⟨sampleBudget, none, some ("May", 3), some ("Jun", 4), 10, false⟩
        ("Jul", 0) ("Aug", 1)).2.startMonth = some ("May", 3) ∧
    (set_analysis_date_range
        ⟨sampleBudget, none, some ("May", 3), some ("Jun", 4), 10, false⟩
        ("Jul", 0) ("Aug", 1)).2.endMonth = some ("Jun", 4) :=
  c9_set_range_atomic
    ⟨sampleBudget, none, some ("May", 3), some ("Jun", 4), 10, false⟩
    ("Jul", 0) ("Aug", 1) rfl

/-! ## C10 -/

/-- C10: `validate_budget_file` is total over error outcomes: it returns a
boolean for every file (the catch-all absorbs every load failure), and it
returns true exactly when `load_budget` succeeds. -/
theorem c10_validate_total (f : BudgetFile) :
    validate_budget_file f = true ↔ ∃ b, loadBudget f = .ok b := by
  unfold validate_budget_file
  cases h : loadBudget f <;> simp

/-! ## C6 -/

/-- Reduction of `calculate_variances` once data and range are set. -/
theorem calculate_variances_eq (st : AnalyzerState) (df : DataFrame)
    (sm em : String × Nat) (had : st.actualData = some df)
    (hsm : st.startMonth = some sm) (hem : st.endMonth = some em) :
    calculate_variances st =
      .ok ((st.budget.get_expense_categories).filterMap (fun exp =>
        let actual := (summarize_totals_by_budget_category st.budget df
          sm.2 em.2 exp.category).getD 0
        let r := mkVarianceRecord exp (numMonths sm.2 em.2) actual
        if st.onlyOverspend && decide (r.variance_percent ≤ st.overspendThreshold)
        then none else some r)) := by
  unfold calculate_variances
  rw [had, hsm, hem]

/-- C6: the zero-budget division is guarded for all inputs — every record
`calculate_variances` emits with budgeted 0 has variance_percent exactly 0 —
and (with the overspend filter off) every expense category whose scaled
budgeted amount is 0 does get such a record. -/
theorem c6_zero_budget_guard (st : AnalyzerState) (df : DataFrame)
    (sm em : String × Nat) (had : st.actualData = some df)
    (hsm : st.startMonth = some sm) (hem : st.endMonth = some em) :
    ∃ out, calculate_variances st = .ok out ∧
      (∀ r ∈ out, r.budgeted = 0 → r.variance_percent = 0) ∧
      (st.onlyOverspend = false →
        ∀ exp ∈ st.budget.get_expense_categories,
          exp.amount.getD 0 * ((numMonths sm.2 em.2 : ℤ) : ℚ) = 0 →
          ∃ r ∈ out, r.category = exp.category ∧ r.budgeted = 0 ∧
            r.variance_percent = 0) := by
  refine ⟨_, calculate_variances_eq st df sm em had hsm hem, ?_, ?_⟩
  · intro r hr hb0
    obtain ⟨exp, hexp, hf⟩ := List.mem_filterMap.mp hr
    simp only at hf
    split at hf
    · exact absurd hf (by simp)
    · obtain rfl : mkVarianceRecord exp (numMonths sm.2 em.2) _ = r :=
        Option.some.inj hf
      simp only [mkVarianceRecord] at hb0 ⊢
      rw [if_pos hb0]
  · intro hoo exp hexp hzero
    refine ⟨mkVarianceRecord exp (numMonths sm.2 em.2)
      ((summarize_totals_by_budget_category st.budget df sm.2 em.2
        exp.category).getD 0), ?_, rfl, ?_, ?_⟩
    · exact List.mem_filterMap.mpr ⟨exp, hexp, by simp [hoo]⟩
    · simpa [mkVarianceRecord] using hzero
    · simp only [mkVarianceRecord]
      rw [if_pos (by simpa [mkVarianceRecord] using hzero)]

/-- A budget with a zero-amount expense category. -/
def zeroBudget : Budget := ⟨[], [.mk "Zero" (some 0) []]⟩

/-- Analyzer for `zeroBudget` over `df1` with a 1-period range. -/
def stZ : AnalyzerState :=
  { budget := zeroBudget, actualData := some df1,
    startMonth := some ("Jul", 0), endMonth := some ("Jul", 0) }

/-- C6 witness: the zero-budget category gets a record with
variance_percent 0. -/
theorem c6_witness :
    ∃ out, calculate_variances stZ = .ok out ∧
      ∃ r ∈ out, r.category = "Zero" ∧ r.budgeted = 0 ∧
        r.variance_percent = 0 := by
  obtain ⟨out, hout, _, h2⟩ :=
    c6_zero_budget_guard stZ df1 ("Jul", 0) ("Jul", 0) rfl rfl rfl
  refine ⟨out, hout, ?_⟩
  refine h2 rfl (.mk "Zero" (some 0) []) ?_ (by simp [Category.amount])
  simp [stZ, zeroBudget, Budget.get_expense_categories, catsWithAmountList,
    catsWithAmountOne]

/-! ## C8 -/

/-- A successful dict lookup returns a binding of the list. -/
theorem dictLookup_mem {m : List (String × Category)} {x : String}
    {v : Category} (h : dictLookup m x = some v) : (x, v) ∈ m := by
  induction m with
  | nil => simp [dictLookup] at h
  | cons p rest ih =>
    obtain ⟨k, w⟩ := p
    rw [dictLookup] at h
    cases hr : dictLookup rest x with
    | some r =>
      rw [hr] at h
      exact List.mem_cons_of_mem _ (ih (hr.trans (congrArg some (Option.some.inj h))))
    | none =>
      rw [hr] at h
      by_cases hk : k = x
      · rw [if_pos hk] at h
        obtain rfl := Option.some.inj h
        exact hk ▸ List.mem_cons_self _ _
      · rw [if_neg hk] at h
        exact absurd h (by simp)

mutual

/-- Every value bound by `populate_map` over a forest carries a defined
amount, provided the carried ancestor does. -/
theorem populate_val_isSome_list (cs : List Category) (cur : Option Category)
    (hcur : ∀ d, cur = some d → d.amount.isSome = true) :
    ∀ p ∈ populateMap cs cur, p.2.amount.isSome = true := by
  match cs with
  | [] => intro p hp; simp [populateMap] at hp
  | c :: cs2 =>
    intro p hp
    rw [populateMap] at hp
    rcases List.mem_append.mp hp with h | h
    · exact populate_val_isSome_one c cur hcur p h
    · exact populate_val_isSome_list cs2 cur hcur p h

/-- Every value bound by `populate_map` within one tree carries a defined
amount, provided the carried ancestor does. -/
theorem populate_val_isSome_one (c : Category) (cur : Option Category)
    (hcur : ∀ d, cur = some d → d.amount.isSome = true) :
    ∀ p ∈ populateOne c cur, p.2.amount.isSome = true := by
  match c with
  | .mk n a subs =>
    intro p hp
    simp only [populateOne] at hp
    cases a with
    | some q =>
      rcases List.mem_append.mp hp with h | h
      · simp only [List.mem_singleton] at h
        subst h
        rfl
      · refine populate_val_isSome_one2 subs _ ?_ p h
        intro d hd
        obtain rfl := Option.some.inj hd
        rfl
    | none =>
      cases hc : cur with
      | none =>
        rw [hc] at hp
        simp only [List.nil_append] at hp
        exact populate_val_isSome_one2 subs none (fun d hd => Option.noConfusion hd) p hp
      | some bc =>
        rw [hc] at hp
        rcases List.mem_append.mp hp with h | h
        · simp only [List.mem_singleton] at h
          subst h
          exact hcur bc hc
        · exact populate_val_isSome_one2 subs (some bc)
            (fun d hd => hcur d (hc.trans hd)) p h

/-- Copy of `populate_val_isSome_list` for the mutual recursion through a
tree's subcategories. -/
theorem populate_val_isSome_one2 (cs : List Category) (cur : Option Category)
    (hcur : ∀ d, cur = some d → d.amount.isSome = true) :
    ∀ p ∈ populateMap cs cur, p.2.amount.isSome = true := by
  match cs with
  | [] => intro p hp; simp [populateMap] at hp
  | c :: cs2 =>
    intro p hp
    rw [populateMap] at hp
    rcases List.mem_append.mp hp with h | h
    · exact populate_val_isSome_one c cur hcur p h
    · exact populate_val_isSome_one2 cs2 cur hcur p h

end

/-- C8: every category the budget-category lookup returns carries a defined
(non-None) amount — the index never yields an inherited node. The index is a
pure function of the forests, so this holds after construction and after
every rebuild. -/
theorem c8_lookup_amount_defined (b : Budget) (x : String) (c : Category)
    (h : b.get_budget_category x = some c) : c.amount.isSome = true := by
  have hm := dictLookup_mem h
  rcases List.mem_append.mp hm with h1 | h1
  · exact populate_val_isSome_list b.income none
      (fun d hd => Option.noConfusion hd) (x, c) h1
  · exact populate_val_isSome_list b.expenses none
      (fun d hd => Option.noConfusion hd) (x, c) h1

/-- C8 witness: the inherited subcategory resolves to a node with a defined
amount. -/
theorem c8_witness :
    (Category.mk "Housing" (some 1500)
      [Category.mk "Renter's Insurance" none []]).amount.isSome = true :=
  c8_lookup_amount_defined sampleBudget "Renter's Insurance" _ rfl

/-! ## C4: normalization of INHERITED before amount type checking -/

/-- How loading relates a raw amount to the constructed one: a number is
preserved exactly; a case-insensitive INHERITED literal becomes `none`. -/
inductive NormAmount : RawAmount → Option ℚ → Prop where
  | num (q : ℚ) : NormAmount (.num q) (some q)
  | inherited (s : String) : upperString s = "INHERITED" → NormAmount (.str s) none

mutual

/-- How loading relates a raw category to the constructed one, at every
nesting depth: same name, `NormAmount`-related amount, related children. -/
inductive NormCat : RawCat → Category → Prop where
  | mk {n : String} {a : RawAmount} {oa : Option ℚ}
      {subs : Option (List RawCat)} {cs : List Category} :
      NormAmount a oa → NormSubs subs cs → NormCat (.mk n a subs) (.mk n oa cs)

/-- Children relation: an absent subcategory key becomes the empty list. -/
inductive NormSubs : Option (List RawCat) → List Category → Prop where
  | absent : NormSubs none []
  | present {l : List RawCat} {cs : List Category} :
      NormList l cs → NormSubs (some l) cs

/-- Pointwise `NormCat` over a list. -/
inductive NormList : List RawCat → List Category → Prop where
  | nil : NormList [] []
  | cons {c : RawCat} {t : Category} {l : List RawCat} {ts : List Category} :
      NormCat c t → NormList l ts → NormList (c :: l) (t :: ts)

end

mutual

/-- On schema-conforming raw categories, preprocessing then field validation
succeeds and realizes the normalization relation. -/
theorem processParseCat (c : RawCat) (h : schemaCatOK c = true) :
    ∃ t, parseCat (processCategory c) = some t ∧ NormCat c t := by
  match c with
  | .mk n a subs =>
    rw [schemaCatOK] at h
    simp only [Bool.and_eq_true] at h
    obtain ⟨ha, hs⟩ := h
    obtain ⟨cs, hcs, hncs⟩ := processParseSubs subs hs
    cases a with
    | num q =>
      refine ⟨.mk n (some q) cs, ?_, NormCat.mk (NormAmount.num q) hncs⟩
      simp [processCategory, processAmount, parseCat, parseAmount, hcs]
    | str s =>
      have hup : upperString s = "INHERITED" := by
        simpa [schemaAmountOK] using ha
      refine ⟨.mk n none cs, ?_, NormCat.mk (NormAmount.inherited s hup) hncs⟩
      simp [processCategory, processAmount, hup, parseCat, parseAmount, hcs]
    | null => simp [schemaAmountOK] at ha

/-- Children version of `processParseCat`. -/
theorem processParseSubs (s : Option (List RawCat)) (h : schemaSubsOK s = true) :
    ∃ cs, parseSubs (processSubs s) = some cs ∧ NormSubs s cs := by
  match s with
  | none => exact ⟨[], rfl, NormSubs.absent⟩
  | some l =>
    obtain ⟨cs, hcs, hn⟩ := processParseList l (by simpa [schemaSubsOK] using h)
    exact ⟨cs, by simpa [processSubs, parseSubs] using hcs, NormSubs.present hn⟩

/-- List version of `processParseCat`. -/
theorem processParseList (l : List RawCat) (h : schemaCatListOK l = true) :
    ∃ cs, parseCatList (processCategoryList l) = some cs ∧ NormList l cs := by
  match l with
  | [] => exact ⟨[], rfl, NormList.nil⟩
  | c :: l2 =>
    rw [schemaCatListOK] at h
    simp only [Bool.and_eq_true] at h
    obtain ⟨h1, h2⟩ := h
    obtain ⟨t, ht, hnt⟩ := processParseCat c h1
    obtain ⟨ts, hts, hnts⟩ := processParseList l2 h2
    refine ⟨t :: ts, ?_, NormList.cons hnt hnts⟩
    simp [processCategoryList, parseCatList, ht, hts]

end

/-- C4: loading any schema-valid raw document succeeds, normalizing every
case-insensitive INHERITED amount — at any nesting depth of income or
expenses — to the absent amount before the numeric amount type check (which
would otherwise reject the string), and preserving every numeric amount. -/
theorem c4_inherited_normalized (d : RawDoc) (h : schemaValid d = true) :
    ∃ b, loadBudget (.parsed d) = .ok b ∧ NormList d.income b.income ∧
      NormList d.expenses b.expenses := by
  have h2 : schemaCatListOK d.income = true ∧ schemaCatListOK d.expenses = true := by
    have h3 := h
    rw [schemaValid] at h3
    simpa only [Bool.and_eq_true] using h3
  obtain ⟨hi, he⟩ := h2
  obtain ⟨inc, hinc, hni⟩ := processParseList d.income hi
  obtain ⟨exps, hexp, hne⟩ := processParseList d.expenses he
  refine ⟨⟨inc, exps⟩, ?_, hni, hne⟩
  simp [loadBudget, h, budgetOfDoc, preprocessInherited, hinc, hexp]

/-- A document using the INHERITED literal in mixed case at depths 1 and 2. -/
def docInh : RawDoc :=
  { income := [.mk "Salary" (.num 6000) none],
    expenses := [.mk "Housing" (.num 1500)
      (some [.mk "Utilities" (.str "inHeRited")
        (some [.mk "Gas" (.str "INHERITED") none])])] }

/-- C4 witness: `docInh` is schema-valid and loads with its INHERITED
amounts normalized at every depth. -/
theorem c4_witness :
    ∃ b, loadBudget (.parsed docInh) = .ok b ∧
      NormList docInh.income b.income ∧ NormList docInh.expenses b.expenses :=
  c4_inherited_normalized docInh (by decide)

/-! ## C7: round-trip of top-level expense amounts -/

/-- The duplicate-name document: the top-level expense "B" = 9 shares its
name with the amount-bearing subcategory "B" = 7 of the earlier entry "A". -/
def docDup : RawDoc :=
  { income := [],
    expenses := [.mk "A" (.num 5) (some [.mk "B" (.num 7) none]),
                 .mk "B" (.num 9) none] }

/-- The budget `docDup` loads to. -/
def bDup : Budget :=
  ⟨[], [.mk "A" (some 5) [.mk "B" (some 7) []], .mk "B" (some 9) []]⟩

/-- C7 counterexample: `docDup` is a valid budget document whose top-level
expense "B" declares amount 9, yet after loading,
`get_expense_category "B"` returns the earlier amount-bearing subcategory
with amount 7 ≠ 9 — the claim fails without a name-uniqueness hypothesis. -/
theorem c7_counterexample :
    loadBudget (.parsed docDup) = .ok bDup ∧
    bDup.get_expense_category "B" = some (.mk "B" (some 7) []) ∧
    docDup.expenses = [.mk "A" (.num 5) (some [.mk "B" (.num 7) none]),
      .mk "B" (.num 9) none] ∧
    (7 : ℚ) ≠ 9 := by
  refine ⟨rfl, rfl, rfl, by norm_num⟩

/-- A top-level raw entry with a numeric amount yields a parsed top-level
category with the same name and that exact amount. -/
theorem parse_top_entry {l : List RawCat} {cs : List Category}
    (hp : parseCatList (processCategoryList l) = some cs)
    {n : String} {v : ℚ} {subs : Option (List RawCat)}
    (hm : RawCat.mk n (.num v) subs ∈ l) :
    ∃ t ∈ cs, t.category = n ∧ t.amount = some v := by
  induction l generalizing cs with
  | nil => simp at hm
  | cons c l2 ih =>
    rw [processCategoryList, parseCatList] at hp
    cases hc : parseCat (processCategory c) with
    | none => rw [hc] at hp; simp at hp
    | some t =>
      cases hl : parseCatList (processCategoryList l2) with
      | none => rw [hc, hl] at hp; simp at hp
      | some ts =>
        rw [hc, hl] at hp
        obtain rfl := Option.some.inj hp
        rcases List.mem_cons.mp hm with rfl | hm2
        · refine ⟨t, List.mem_cons_self _ _, ?_⟩
          rw [processCategory] at hc
          simp only [processAmount, parseCat, parseAmount] at hc
          cases hps : parseSubs (processSubs subs) with
          | none => rw [hps] at hc; simp at hc
          | some cs2 =>
            rw [hps] at hc
            obtain rfl := Option.some.inj hc
            exact ⟨rfl, rfl⟩
        · obtain ⟨t2, ht2, h3⟩ := ih hl hm2
          exact ⟨t2, List.mem_cons_of_mem _ ht2, h3⟩

/-- A top-level node with a defined amount appears among the amount-bearing
categories of the forest. -/
theorem mem_catsWithAmount_of_top {cs : List Category} {t : Category}
    (ht : t ∈ cs) {v : ℚ} (ha : t.amount = some v) :
    t ∈ catsWithAmountList cs := by
  induction cs with
  | nil => simp at ht
  | cons c l ih =>
    rw [catsWithAmountList]
    rcases List.mem_cons.mp ht with rfl | h2
    · refine List.mem_append.mpr (Or.inl ?_)
      match t, ha with
      | .mk n a s, ha =>
        rw [Category.amount] at ha
        subst ha
        rw [catsWithAmountOne]
        exact List.mem_cons_self _ _
    · exact List.mem_append.mpr (Or.inr (ih h2))

mutual

/-- The names of the amount-bearing categories of a forest form a sublist of
all names of the forest. -/
theorem catsWA_names_sublist_list (cs : List Category) :
    ((catsWithAmountList cs).map Category.category).Sublist (namesList cs) := by
  match cs with
  | [] => simp [catsWithAmountList, namesList]
  | c :: cs2 =>
    rw [catsWithAmountList, namesList, List.map_append]
    exact (catsWA_names_sublist_one c).append (catsWA_names_sublist_list cs2)

/-- Tree version of `catsWA_names_sublist_list`. -/
theorem catsWA_names_sublist_one (c : Category) :
    ((catsWithAmountOne c).map Category.category).Sublist (namesOne c) := by
  match c with
  | .mk n (some a) subs =>
    rw [catsWithAmountOne, namesOne, List.map_cons]
    exact (catsWA_names_sublist_list subs).cons₂ _
  | .mk n none subs =>
    rw [catsWithAmountOne, namesOne]
    exact (catsWA_names_sublist_list subs).cons _

end

/-- With pairwise-distinct names, `find?` by name returns the (unique)
member carrying that name. -/
theorem find_eq_of_nodup_names {l : List Category} {t : Category} {x : String}
    (hnd : (l.map Category.category).Nodup) (ht : t ∈ l)
    (hx : t.category = x) :
    l.find? (fun c => c.category == x) = some t := by
  induction l with
  | nil => simp at ht
  | cons c l2 ih =>
    rw [List.map_cons, List.nodup_cons] at hnd
    by_cases hc : c.category = x
    · rcases List.mem_cons.mp ht with rfl | h2
      · simp [List.find?_cons, hc]
      · exfalso
        have hmem : x ∈ List.map Category.category l2 := by
          rw [← hx]
          exact List.mem_map_of_mem _ h2
        have hnot : x ∉ List.map Category.category l2 := by
          rw [← hc]
          exact hnd.1
        exact hnot hmem
    · have ht2 : t ∈ l2 := by
        rcases List.mem_cons.mp ht with rfl | h2
        · exact absurd hx hc
        · exact h2
      have : (c.category == x) = false := by simp [hc]
      rw [List.find?_cons, this]
      exact ih hnd.2 ht2

/-- C7 amended: for every valid budget document loading to a budget whose
expense-forest names are pairwise distinct, `get_expense_category` on a
top-level expense entry with a numeric declared amount returns a category
with exactly that amount. -/
theorem c7_round_trip (d : RawDoc) (b : Budget)
    (hload : loadBudget (.parsed d) = .ok b)
    (hnd : (namesList b.expenses).Nodup)
    (n : String) (v : ℚ) (subs : Option (List RawCat))
    (hentry : RawCat.mk n (.num v) subs ∈ d.expenses) :
    ∃ t, b.get_expense_category n = some t ∧ t.amount = some v := by
  have hexp : parseCatList (processCategoryList d.expenses) = some b.expenses := by
    simp only [loadBudget] at hload
    split at hload
    · simp only [budgetOfDoc] at hload
      cases hi : parseCatList (preprocessInherited d).income with
      | none => rw [hi] at hload; simp at hload
      | some inc =>
        cases he : parseCatList (preprocessInherited d).expenses with
        | none => rw [hi, he] at hload; simp at hload
        | some exps =>
          rw [hi, he] at hload
          simp only [Except.ok.injEq] at hload
          rw [← hload]
          exact he
    · exact absurd hload (by simp)
  obtain ⟨t, htm, htc, hta⟩ := parse_top_entry hexp hentry
  have htWA : t ∈ catsWithAmountList b.expenses :=
    mem_catsWithAmount_of_top htm hta
  have hndWA : ((catsWithAmountList b.expenses).map Category.category).Nodup :=
    hnd.sublist (catsWA_names_sublist_list b.expenses)
  exact ⟨t, find_eq_of_nodup_names hndWA htWA htc, hta⟩

/-- C7 witness: the unique-names document `docInh` round-trips its top-level
expense Housing = 1500. -/
theorem c7_witness :
    ∃ t, Budget.get_expense_category
        ⟨[.mk "Salary" (some 6000) []],
         [.mk "Housing" (some 1500) [.mk "Utilities" none [.mk "Gas" none []]]]⟩
        "Housing" = some t ∧ t.amount = some 1500 :=
  c7_round_trip docInh
    ⟨[.mk "Salary" (some 6000) []],
     [.mk "Housing" (some 1500) [.mk "Utilities" none [.mk "Gas" none []]]]⟩
    rfl (by decide) "Housing" 1500
    (some [.mk "Utilities" (.str "inHeRited")
      (some [.mk "Gas" (.str "INHERITED") none])])
    (List.mem_singleton.mpr rfl)

/-! ## C3: the budget-category index resolves nearest amount-bearing
ancestors -/

/-- Membership of a node anywhere in a forest. -/
inductive InForest : List Category → Category → Prop where
  | here {cs : List Category} {c : Category} : c ∈ cs → InForest cs c
  | deeper {cs : List Category} {b c : Category} :
      b ∈ cs → InForest b.subcategories c → InForest cs c

/-- The node `c` is amountless and reachable in the forest through amountless
nodes only: the index walk reaches `c` still carrying the budget category it
entered the forest with. -/
inductive ReachInh : List Category → Category → Prop where
  | here {cs : List Category} {c : Category} :
      c ∈ cs → c.amount = none → ReachInh cs c
  | deeper {cs : List Category} {b c : Category} :
      b ∈ cs → b.amount = none → ReachInh b.subcategories c → ReachInh cs c

/-- `c` is a strict descendant of `a`. -/
inductive Descendant : Category → Category → Prop where
  | child {a c : Category} : c ∈ a.subcategories → Descendant a c
  | step {a b c : Category} :
      b ∈ a.subcategories → Descendant b c → Descendant a c

/-- Membership of a node in either forest of a budget. -/
def InBudget (b : Budget) (c : Category) : Prop :=
  InForest b.income c ∨ InForest b.expenses c

theorem namesList_append (l r : List Category) :
    namesList (l ++ r) = namesList l ++ namesList r := by
  induction l with
  | nil => simp [namesList]
  | cons c l2 ih =>
    rw [List.cons_append, namesList, namesList, ih, List.append_assoc]

theorem populateMap_append (l r : List Category) (σ : Option Category) :
    populateMap (l ++ r) σ = populateMap l σ ++ populateMap r σ := by
  induction l with
  | nil => simp [populateMap]
  | cons c l2 ih =>
    rw [List.cons_append, populateMap, populateMap, ih, List.append_assoc]

/-- First-some choice, for stating how dict lookup treats concatenations. -/
def optOr : Option Category → Option Category → Option Category
  | some v, _ => some v
  | none, b => b

@[simp] theorem optOr_some (v : Category) (b : Option Category) :
    optOr (some v) b = some v := rfl

@[simp] theorem optOr_none (b : Option Category) : optOr none b = b := rfl

/-- Lookup in a concatenation prefers the suffix (later dict insertions
overwrite earlier ones). -/
theorem dictLookup_append (xs ys : List (String × Category)) (x : String) :
    dictLookup (xs ++ ys) x = optOr (dictLookup ys x) (dictLookup xs x) := by
  induction xs with
  | nil =>
    rw [List.nil_append]
    cases dictLookup ys x <;> simp [dictLookup]
  | cons p xs2 ih =>
    obtain ⟨k, w⟩ := p
    simp only [List.cons_append, dictLookup, List.append_eq]
    rw [ih]
    cases dictLookup ys x <;> cases dictLookup xs2 x <;> rfl

theorem mem_namesList {cs : List Category} {c : Category} (h : c ∈ cs) :
    c.category ∈ namesList cs := by
  induction cs with
  | nil => simp at h
  | cons d l ih =>
    rw [namesList]
    rcases List.mem_cons.mp h with rfl | h2
    · refine List.mem_append.mpr (Or.inl ?_)
      match c with
      | .mk n a s =>
        rw [namesOne]
        exact List.mem_cons_self _ _
    · exact List.mem_append.mpr (Or.inr (ih h2))

theorem mem_namesOne_lift {cs : List Category} {b : Category} {x : String}
    (hb : b ∈ cs) (hx : x ∈ namesOne b) : x ∈ namesList cs := by
  induction cs with
  | nil => simp at hb
  | cons d l ih =>
    rw [namesList]
    rcases List.mem_cons.mp hb with rfl | h2
    · exact List.mem_append.mpr (Or.inl hx)
    · exact List.mem_append.mpr (Or.inr (ih h2))

theorem mem_namesOne_of_subs {b : Category} {x : String}
    (h : x ∈ namesList b.subcategories) : x ∈ namesOne b := by
  match b with
  | .mk n a s =>
    rw [namesOne]
    exact List.mem_cons_of_mem _ h

theorem category_mem_namesOne (c : Category) : c.category ∈ namesOne c := by
  match c with
  | .mk n a s =>
    rw [namesOne]
    exact List.mem_cons_self _ _

theorem inForest_namesOne {cs : List Category} {a : Category} {x : String}
    (h : InForest cs a) (hx : x ∈ namesOne a) : x ∈ namesList cs := by
  induction h with
  | here hmem => exact mem_namesOne_lift hmem hx
  | deeper hmem _ ih => exact mem_namesOne_lift hmem (mem_namesOne_of_subs (ih hx))

theorem inForest_name {cs : List Category} {a : Category} (h : InForest cs a) :
    a.category ∈ namesList cs :=
  inForest_namesOne h (category_mem_namesOne a)

theorem reachInh_name {cs : List Category} {c : Category} (h : ReachInh cs c) :
    c.category ∈ namesList cs := by
  induction h with
  | here hmem _ => exact mem_namesList hmem
  | deeper hmem _ _ ih => exact mem_namesOne_lift hmem (mem_namesOne_of_subs ih)

mutual

/-- Every key bound by `populate_map` over a forest is a name of the forest. -/
theorem populate_key_mem_list (cs : List Category) (cur : Option Category)
    {k : String} {v : Category} (h : (k, v) ∈ populateMap cs cur) :
    k ∈ namesList cs := by
  match cs with
  | [] => simp [populateMap] at h
  | c :: cs2 =>
    rw [populateMap] at h
    rw [namesList]
    rcases List.mem_append.mp h with h1 | h1
    · exact List.mem_append.mpr (Or.inl (populate_key_mem_one c cur h1))
    · exact List.mem_append.mpr (Or.inr (populate_key_mem_list cs2 cur h1))

/-- Tree version of `populate_key_mem_list`. -/
theorem populate_key_mem_one (c : Category) (cur : Option Category)
    {k : String} {v : Category} (h : (k, v) ∈ populateOne c cur) :
    k ∈ namesOne c := by
  match c with
  | .mk n a subs =>
    simp only [populateOne] at h
    rw [namesOne]
    cases a with
    | some q =>
      rcases List.mem_append.mp h with h1 | h1
      · simp only [List.mem_singleton, Prod.mk.injEq] at h1
        exact h1.1 ▸ List.mem_cons_self _ _
      · exact List.mem_cons_of_mem _ (populate_key_mem_list subs _ h1)
    | none =>
      cases cur with
      | none =>
        rw [List.nil_append] at h
        exact List.mem_cons_of_mem _ (populate_key_mem_list subs _ h)
      | some bc =>
        rcases List.mem_append.mp h with h1 | h1
        · simp only [List.mem_singleton, Prod.mk.injEq] at h1
          exact h1.1 ▸ List.mem_cons_self _ _
        · exact List.mem_cons_of_mem _ (populate_key_mem_list subs _ h1)

end

/-- A name foreign to the forest is absent from its `populate_map` bindings. -/
theorem dictLookup_populate_none {cs : List Category} {x : String}
    (hx : x ∉ namesList cs) (cur : Option Category) :
    dictLookup (populateMap cs cur) x = none := by
  cases h : dictLookup (populateMap cs cur) x with
  | none => rfl
  | some v => exact absurd (populate_key_mem_list cs cur (dictLookup_mem h)) hx

@[simp] theorem optOr_none_right (b : Option Category) : optOr b none = b := by
  cases b <;> rfl

/-- What the walk binds at the name of a node sitting in the forest: itself
when it carries an amount, the inherited context otherwise. -/
theorem dictLookup_populate_at (l r : List Category) (n : String)
    (a : Option ℚ) (subs : List Category)
    (hnd : (namesList (l ++ .mk n a subs :: r)).Nodup) (σ : Option Category) :
    dictLookup (populateMap (l ++ .mk n a subs :: r) σ) n =
      a.elim σ (fun _ => some (.mk n a subs)) := by
  rw [namesList_append] at hnd
  simp only [namesList, namesOne, List.cons_append] at hnd
  rw [List.nodup_append] at hnd
  obtain ⟨-, hndB, hdisj⟩ := hnd
  rw [List.nodup_cons] at hndB
  obtain ⟨hnB, -⟩ := hndB
  have hnsubs : n ∉ namesList subs := fun h => hnB (List.mem_append.mpr (Or.inl h))
  have hnr : n ∉ namesList r := fun h => hnB (List.mem_append.mpr (Or.inr h))
  have hnl : dictLookup (populateMap l σ) n = none := by
    cases hdl : dictLookup (populateMap l σ) n with
    | none => rfl
    | some v =>
      have hmem := populate_key_mem_list l σ (dictLookup_mem hdl)
      exact absurd (List.mem_cons_self _ _) (hdisj hmem)
  rw [populateMap_append, dictLookup_append, populateMap, dictLookup_append,
    dictLookup_populate_none hnr, hnl]
  simp only [optOr_none, optOr_none_right]
  simp only [populateOne]
  cases a with
  | some q =>
    rw [dictLookup_append, dictLookup_populate_none hnsubs]
    simp [dictLookup, Option.elim]
  | none =>
    cases σ with
    | none =>
      rw [List.nil_append, dictLookup_populate_none hnsubs]
      rfl
    | some bc =>
      rw [dictLookup_append, dictLookup_populate_none hnsubs]
      simp [dictLookup, Option.elim]

/-- Looking up a name that lives strictly inside a tree of the forest
reduces to the lookup inside that tree's subforest, carrying the updated
context. -/
theorem dictLookup_populate_middle (l r : List Category) (n : String)
    (a : Option ℚ) (subs : List Category) {x : String}
    (hnd : (namesList (l ++ .mk n a subs :: r)).Nodup)
    (hx : x ∈ namesList subs) (σ : Option Category) :
    dictLookup (populateMap (l ++ .mk n a subs :: r) σ) x =
      dictLookup
        (populateMap subs (a.elim σ (fun _ => some (.mk n a subs)))) x := by
  rw [namesList_append] at hnd
  simp only [namesList, namesOne, List.cons_append] at hnd
  rw [List.nodup_append] at hnd
  obtain ⟨-, hndB, hdisj⟩ := hnd
  rw [List.nodup_cons] at hndB
  obtain ⟨hnB, hndSR⟩ := hndB
  rw [List.nodup_append] at hndSR
  obtain ⟨-, -, hdisjSR⟩ := hndSR
  have hxr : x ∉ namesList r := hdisjSR hx
  have hxn : x ≠ n := fun h => hnB (List.mem_append.mpr (Or.inl (h ▸ hx)))
  have hxl : dictLookup (populateMap l σ) x = none := by
    cases hdl : dictLookup (populateMap l σ) x with
    | none => rfl
    | some v =>
      have hmem := populate_key_mem_list l σ (dictLookup_mem hdl)
      exact absurd (List.mem_cons_of_mem _ (List.mem_append.mpr (Or.inl hx)))
        (hdisj hmem)
  rw [populateMap_append, dictLookup_append, populateMap, dictLookup_append,
    dictLookup_populate_none hxr, hxl]
  simp only [optOr_none, optOr_none_right]
  simp only [populateOne]
  rw [dictLookup_append]
  cases a with
  | some q => simp [dictLookup, Ne.symm hxn, Option.elim]
  | none => cases σ <;> simp [dictLookup, Ne.symm hxn, Option.elim]

/-- Restriction of a nodup hypothesis to the subforest of a middle tree. -/
theorem nodup_subs_of_middle {l r : List Category} {n : String} {a : Option ℚ}
    {subs : List Category}
    (hnd : (namesList (l ++ .mk n a subs :: r)).Nodup) :
    (namesList subs).Nodup := by
  rw [namesList_append] at hnd
  simp only [namesList, namesOne, List.cons_append] at hnd
  rw [List.nodup_append] at hnd
  obtain ⟨-, hndB, -⟩ := hnd
  rw [List.nodup_cons] at hndB
  obtain ⟨-, hndSR⟩ := hndB
  rw [List.nodup_append] at hndSR
  exact hndSR.1

/-- Master lemma: a node reachable through amountless nodes (itself
amountless) is looked up to exactly the context the walk entered with. -/
theorem dictLookup_populate_reach {cs : List Category} {c : Category}
    (hr : ReachInh cs c) :
    ∀ σ : Option Category, (namesList cs).Nodup →
      dictLookup (populateMap cs σ) c.category = σ := by
  induction hr with
  | @here cs2 c2 hmem hnone =>
    intro σ hnd
    obtain ⟨l, r, rfl⟩ := List.append_of_mem hmem
    rcases c2 with ⟨n, a, subs⟩
    simp only [Category.amount] at hnone
    subst hnone
    have := dictLookup_populate_at l r n none subs hnd σ
    simpa [Category.category, Option.elim] using this
  | @deeper cs2 b2 c2 hmem hbnone hsub ih =>
    intro σ hnd
    obtain ⟨l, r, rfl⟩ := List.append_of_mem hmem
    rcases b2 with ⟨n, a, subs⟩
    simp only [Category.amount] at hbnone
    subst hbnone
    have hx : c2.category ∈ namesList subs := reachInh_name hsub
    rw [dictLookup_populate_middle l r n none subs hnd hx σ]
    exact ih σ (nodup_subs_of_middle hnd)

/-- A node with a defined amount is looked up to itself. -/
theorem dictLookup_populate_self {cs : List Category} {c : Category}
    (hin : InForest cs c) :
    ∀ {v : ℚ}, c.amount = some v → ∀ σ : Option Category,
      (namesList cs).Nodup →
      dictLookup (populateMap cs σ) c.category = some c := by
  induction hin with
  | @here cs2 c2 hmem =>
    intro v hv σ hnd
    obtain ⟨l, r, rfl⟩ := List.append_of_mem hmem
    rcases c2 with ⟨n, a, subs⟩
    simp only [Category.amount] at hv
    subst hv
    have := dictLookup_populate_at l r n (some v) subs hnd σ
    simpa [Category.category, Option.elim] using this
  | @deeper cs2 b2 c2 hmem hsubin ih =>
    intro v hv σ hnd
    obtain ⟨l, r, rfl⟩ := List.append_of_mem hmem
    rcases b2 with ⟨n, a, subs⟩
    have hx : c2.category ∈ namesList subs := inForest_name hsubin
    rw [dictLookup_populate_middle l r n a subs hnd hx σ]
    exact ih hv _ (nodup_subs_of_middle hnd)

/-- A node reachable through amountless nodes under an amount-bearing node
of the forest is looked up to that node. -/
theorem dictLookup_populate_under {cs : List Category} {a : Category}
    (hin : InForest cs a) :
    ∀ {v : ℚ}, a.amount = some v → ∀ {c : Category},
      ReachInh a.subcategories c → ∀ σ : Option Category,
      (namesList cs).Nodup →
      dictLookup (populateMap cs σ) c.category = some a := by
  induction hin with
  | @here cs2 a2 hmem =>
    intro v hv c hr σ hnd
    obtain ⟨l, r, rfl⟩ := List.append_of_mem hmem
    rcases a2 with ⟨n, av, subs⟩
    simp only [Category.amount] at hv
    subst hv
    have hx : c.category ∈ namesList subs := reachInh_name hr
    rw [dictLookup_populate_middle l r n (some v) subs hnd hx σ]
    exact dictLookup_populate_reach hr _ (nodup_subs_of_middle hnd)
  | @deeper cs2 b2 a2 hmem hsubin ih =>
    intro v hv c hr σ hnd
    obtain ⟨l, r, rfl⟩ := List.append_of_mem hmem
    rcases b2 with ⟨m, ab, bsubs⟩
    have hx : c.category ∈ namesList bsubs :=
      inForest_namesOne hsubin (mem_namesOne_of_subs (reachInh_name hr))
    rw [dictLookup_populate_middle l r m ab bsubs hnd hx σ]
    exact ih hv hr _ (nodup_subs_of_middle hnd)

/-- A node of a tree's subforest is a strict descendant of that tree. -/
theorem descendant_of_inForest {cs : List Category} {c : Category}
    (h : InForest cs c) : ∀ {b : Category}, cs = b.subcategories →
      Descendant b c := by
  induction h with
  | here hmem =>
    intro b heq
    exact Descendant.child (heq ▸ hmem)
  | @deeper cs2 b2 c2 hmem _ ih =>
    intro b heq
    exact Descendant.step (heq ▸ hmem) (ih rfl)

/-- An amountless node all of whose ancestors in the forest are amountless
is reachable through amountless nodes. -/
theorem reachInh_of_inForest {cs : List Category} {c : Category}
    (hin : InForest cs c) :
    c.amount = none →
    (∀ a, InForest cs a → Descendant a c → a.amount = none) →
    ReachInh cs c := by
  induction hin with
  | here hmem =>
    intro hnone _
    exact ReachInh.here hmem hnone
  | @deeper cs2 b2 c2 hmem hsubin ih =>
    intro hnone hanc
    refine ReachInh.deeper hmem ?_ (ih hnone ?_)
    · exact hanc b2 (InForest.here hmem) (descendant_of_inForest hsubin rfl)
    · intro a hina hd
      exact hanc a (InForest.deeper hmem hina) hd

/-- C3: over a budget with globally unique category names, the
budget-category index maps (1) every amountless node reachable from an
amount-bearing node through amountless nodes — i.e. every descendant with no
closer amount-bearing ancestor — to that node, (2) every node carrying a
defined amount to itself, and (3) every amountless node with no
amount-bearing ancestor anywhere on its path to nothing. -/
theorem c3_lookup_budget_category (bgt : Budget)
    (hnd : (namesList bgt.income ++ namesList bgt.expenses).Nodup) :
    (∀ (a : Category) (v : ℚ) (c : Category), InBudget bgt a →
      a.amount = some v → ReachInh a.subcategories c →
      bgt.get_budget_category c.category = some a) ∧
    (∀ (c : Category) (v : ℚ), InBudget bgt c → c.amount = some v →
      bgt.get_budget_category c.category = some c) ∧
    (∀ c : Category, InBudget bgt c → c.amount = none →
      (∀ a : Category, InBudget bgt a → Descendant a c → a.amount = none) →
      bgt.get_budget_category c.category = none) := by
  have hnd2 := hnd
  rw [List.nodup_append] at hnd2
  obtain ⟨hndI, hndE, hdisj⟩ := hnd2
  have hlook : ∀ x : String, bgt.get_budget_category x =
      optOr (dictLookup (populateMap bgt.expenses none) x)
        (dictLookup (populateMap bgt.income none) x) := by
    intro x
    rw [Budget.get_budget_category, Budget.budget_category_map, dictLookup_append]
  refine ⟨?_, ?_, ?_⟩
  · intro a v c hin hv hr
    have hxa : c.category ∈ namesOne a := mem_namesOne_of_subs (reachInh_name hr)
    rcases hin with hI | hE
    · have hxI : c.category ∈ namesList bgt.income := inForest_namesOne hI hxa
      have hxE : c.category ∉ namesList bgt.expenses := hdisj hxI
      rw [hlook, dictLookup_populate_none hxE, optOr_none]
      exact dictLookup_populate_under hI hv hr none hndI
    · rw [hlook, dictLookup_populate_under hE hv hr none hndE, optOr_some]
  · intro c v hin hv
    rcases hin with hI | hE
    · have hxI : c.category ∈ namesList bgt.income := inForest_name hI
      have hxE : c.category ∉ namesList bgt.expenses := hdisj hxI
      rw [hlook, dictLookup_populate_none hxE, optOr_none]
      exact dictLookup_populate_self hI hv none hndI
    · rw [hlook, dictLookup_populate_self hE hv none hndE, optOr_some]
  · intro c hin hnone hanc
    rcases hin with hI | hE
    · have hr : ReachInh bgt.income c :=
        reachInh_of_inForest hI hnone
          (fun a hina hd => hanc a (Or.inl hina) hd)
      have hxI : c.category ∈ namesList bgt.income := inForest_name hI
      have hxE : c.category ∉ namesList bgt.expenses := hdisj hxI
      rw [hlook, dictLookup_populate_none hxE, optOr_none]
      exact dictLookup_populate_reach hr none hndI
    · have hr : ReachInh bgt.expenses c :=
        reachInh_of_inForest hE hnone
          (fun a hina hd => hanc a (Or.inr hina) hd)
      have hxE : c.category ∈ namesList bgt.expenses := inForest_name hE
      have hxI : c.category ∉ namesList bgt.income :=
        fun h => (hdisj h) hxE
      rw [hlook, dictLookup_populate_reach hr none hndE, optOr_none,
        dictLookup_populate_none hxI]

/-- A small unique-name budget exercising all three lookup behaviors. -/
def wBudget : Budget :=
  ⟨[], [.mk "P" (some 10) [.mk "Q" none []], .mk "M" none []]⟩

/-- C3 witness: in `wBudget`, the inherited child Q resolves to its
amount-bearing parent P, P resolves to itself, and the amountless root M
with no amount-bearing ancestor resolves to nothing. -/
theorem c3_witness :
    Budget.get_budget_category wBudget "Q" =
      some (.mk "P" (some 10) [.mk "Q" none []]) ∧
    Budget.get_budget_category wBudget "P" =
      some (.mk "P" (some 10) [.mk "Q" none []]) ∧
    Budget.get_budget_category wBudget "M" = none := by
  obtain ⟨h1, h2, h3⟩ := c3_lookup_budget_category wBudget (by decide)
  refine ⟨?_, ?_, ?_⟩
  · exact h1 (.mk "P" (some 10) [.mk "Q" none []]) 10 (.mk "Q" none [])
      (Or.inr (InForest.here (List.mem_cons_self _ _))) rfl
      (ReachInh.here (List.mem_cons_self _ _) rfl)
  · exact h2 (.mk "P" (some 10) [.mk "Q" none []]) 10
      (Or.inr (InForest.here (List.mem_cons_self _ _))) rfl
  · refine h3 (.mk "M" none [])
      (Or.inr (InForest.here (List.mem_cons_of_mem _ (List.mem_cons_self _ _))))
      rfl ?_
    intro a ha hd
    have hforest : ∀ x : Category,
        InForest [Category.mk "Q" none []] x → x = .mk "Q" none [] := by
      intro x hx
      cases hx with
      | here hm => simpa using hm
      | @deeper _ b _ hm hsub =>
        have hm2 : b = Category.mk "Q" none [] := by simpa using hm
        subst hm2
        cases hsub with
        | here hmm => simp [Category.subcategories] at hmm
        | deeper hmm _ => simp [Category.subcategories] at hmm
    have hPnot : ¬ Descendant (.mk "P" (some 10) [.mk "Q" none []])
        (.mk "M" none []) := by
      intro hdy
      cases hdy with
      | child hm =>
        simp [Category.subcategories, Category.mk.injEq] at hm
      | @step _ b _ hm hd2 =>
        have hm2 : b = Category.mk "Q" none [] := by
          simpa [Category.subcategories] using hm
        subst hm2
        cases hd2 with
        | child hmm => simp [Category.subcategories] at hmm
        | step hmm _ => simp [Category.subcategories] at hmm
    rcases ha with hI | hE
    · cases hI with
      | here hm => simp [wBudget] at hm
      | deeper hm _ => simp [wBudget] at hm
    · cases hE with
      | here hm =>
        rcases (by simpa [wBudget] using hm :
            a = Category.mk "P" (some 10) [.mk "Q" none []] ∨
            a = Category.mk "M" none []) with rfl | rfl
        · exact absurd hd hPnot
        · rfl
      | @deeper _ b _ hm hsub =>
        rcases (by simpa [wBudget] using hm :
            b = Category.mk "P" (some 10) [.mk "Q" none []] ∨
            b = Category.mk "M" none []) with rfl | rfl
        · have := hforest a hsub
          subst this
          rfl
        · cases hsub with
          | here hmm => simp [Category.subcategories] at hmm
          | deeper hmm _ => simp [Category.subcategories] at hmm

end BudgetTracker
